import Mathlib

/-!
Shallow embedding of `structure.py` (FileSelectorApp): the selection-state
model, the filesystem walker, the file combiner, and the tree-string
renderer, together with proofs about the claims of the specification.

Filesystem paths are modelled as lists of path segments of an absolute,
normalized path (no empty segments, no `.`/`..` segments), which is what
`os.path.abspath` produces and what the application passes around
(`current_dir` comes from `os.getcwd()`/the directory picker, and every file
path is built with `os.path.join` from it).
-/

namespace FolderStructure

/-- A filesystem path: the segments of an absolute normalized path. -/
abbrev Path := List String

/-- The Python `genericpath.commonprefix` on two segment lists: the length of their
longest common prefix, as used inside `posixpath.relpath`. -/
def commonPrefixLen : List String → List String → Nat
  | a :: as, b :: bs => if a = b then commonPrefixLen as bs + 1 else 0
  | _, _ => 0

/-- Model of `os.path.relpath(path, start)` followed by `.split(os.sep)`, on segment
lists: drop the common prefix, prepend one `..` per remaining segment of
`start`, and return `["."]` when the result would be empty (relpath returns
`os.curdir` there, which splits to the single segment `"."`). -/
def relpath (path start : Path) : Path :=
  let i := commonPrefixLen start path
  let rel := List.replicate (start.length - i) ".." ++ path.drop i
  if rel.isEmpty then ["."] else rel

/-- Model of `os.path.basename` on a segment list: the last segment (empty for the
filesystem root). -/
def basename (p : Path) : String :=
  p.getLastD ""

/-- The transient nested dictionary `tree_dict` of `_generate_tree_string`:
a mapping from path segment to child mapping, kept in insertion order as a
Python `dict` is. -/
inductive TreeDict : Type where
  | node : List (String × TreeDict) → TreeDict

/-- The key/sub-dictionary pairs of a `TreeDict`, in insertion order. -/
def TreeDict.children : TreeDict → List (String × TreeDict)
  | .node cs => cs

/-- Python truthiness of a dict (`if d[item]:`): it is non-empty. -/
def TreeDict.nonEmpty : TreeDict → Bool
  | .node cs => !cs.isEmpty

/-- One step of `current.setdefault(part, {})` combined with the rest of the
insertion walk `f` applied to the sub-dictionary found or created at `part`:
an existing key keeps its position and its sub-dictionary is updated by `f`;
a missing key is appended at the end (Python dict insertion order) with `f`
applied to a fresh empty dict. -/
def updateAssoc (part : String) (f : TreeDict → TreeDict) :
    List (String × TreeDict) → List (String × TreeDict)
  | [] => [(part, f (.node []))]
  | (k, sub) :: rest =>
    if k = part then (k, f sub) :: rest else (k, sub) :: updateAssoc part f rest

/-- The `for part in parts: current = current.setdefault(part, {})` walk of
`_generate_tree_string`, inserting one relative path (as segments) into the
tree dictionary. -/
def insertParts : TreeDict → List String → TreeDict
  | d, [] => d
  | d, part :: rest => .node (updateAssoc part (fun sub => insertParts sub rest) d.children)

/-- The `tree_dict` built by `_generate_tree_string`: every selected path is
made relative to `root_path`, split into segments and inserted. -/
def build_tree_dict (root_path : Path) (selected_paths : List Path) : TreeDict :=
  selected_paths.foldl (fun d p => insertParts d (relpath p root_path)) (.node [])

instance decKeyLE : DecidableRel (fun (a b : String × TreeDict) => a.1 ≤ b.1) :=
  fun a b => decidable_of_iff (¬ b.1.data < a.1.data)
    (not_congr String.lt_iff_toList_lt.symm)

/-- Model of `sorted(d.keys())` followed by the `d[item]` lookups: the keys of a
`TreeDict` are unique by construction, so sorting the (key, sub) pairs by key
with a stable sort yields the same sequence of keys and sub-dictionaries. -/
def sortPairs (cs : List (String × TreeDict)) : List (String × TreeDict) :=
  cs.insertionSort (fun a b => a.1 ≤ b.1)

/-- Measure for the recursion of `format_lines`: total number of dictionary
entries below a children list. -/
def sizeChildren : List (String × TreeDict) → Nat
  | [] => 0
  | (_, TreeDict.node cs) :: rest => 1 + sizeChildren cs + sizeChildren rest

theorem sizeChildren_cons (k : String) (sub : TreeDict) (rest : List (String × TreeDict)) :
    sizeChildren ((k, sub) :: rest) = 1 + sizeChildren sub.children + sizeChildren rest := by
  cases sub with
  | node cs => simp [sizeChildren, TreeDict.children]

theorem sizeChildren_eq_sum (l : List (String × TreeDict)) :
    sizeChildren l = (l.map (fun p => 1 + sizeChildren p.2.children)).sum := by
  induction l with
  | nil => simp [sizeChildren]
  | cons hd tl ih =>
    obtain ⟨k, sub⟩ := hd
    rw [sizeChildren_cons]
    simp only [List.map_cons, List.sum_cons, ih]

theorem sizeChildren_sortPairs (l : List (String × TreeDict)) :
    sizeChildren (sortPairs l) = sizeChildren l := by
  rw [sizeChildren_eq_sum, sizeChildren_eq_sum]
  exact (((List.perm_insertionSort _ l).map _).sum_eq)

/-- The body of `format_tree` in `_generate_tree_string`, operating on the
already-sorted (key, sub) pairs of one level.  For each child: emit
`prefix + branch + name`; if its sub-dictionary is non-empty, the code runs
`lines.extend(format_tree(d[item], new_prefix))` — `format_tree` returns a
*string*, and `list.extend` of a string appends its *characters* as
one-character strings, which is reproduced faithfully here. -/
def format_lines : List (String × TreeDict) → String → List String
  | [], _ => []
  | (k, sub) :: rest, pre =>
    let is_last := rest.isEmpty
    let branch := if is_last then "└── " else "├── "
    let nested : List String :=
      if sub.nonEmpty then
        ("\n".intercalate
            (format_lines (sortPairs sub.children)
              (pre ++ (if is_last then "    " else "│   ")))).data.map
          (fun c => String.mk [c])
      else []
    (pre ++ branch ++ k) :: (nested ++ format_lines rest pre)
termination_by l _ => sizeChildren l
decreasing_by
  · rw [sizeChildren_sortPairs, sizeChildren_cons]
    omega
  · rw [sizeChildren_cons]
    omega

/-- Fuel-indexed companion of `format_lines`, used only to evaluate concrete
instances inside the kernel (`format_lines` itself is defined by well-founded
recursion and does not reduce definitionally); with enough fuel it computes
the same lines, see `format_lines_fueled_eq`. -/
def format_lines_fueled : Nat → List (String × TreeDict) → String → List String
  | _, [], _ => []
  | 0, _ :: _, _ => []
  | fuel + 1, (k, sub) :: rest, pre =>
    let is_last := rest.isEmpty
    let branch := if is_last then "└── " else "├── "
    let nested : List String :=
      if sub.nonEmpty then
        ("\n".intercalate
            (format_lines_fueled fuel (sortPairs sub.children)
              (pre ++ (if is_last then "    " else "│   ")))).data.map
          (fun c => String.mk [c])
      else []
    (pre ++ branch ++ k) :: (nested ++ format_lines_fueled fuel rest pre)

/-- Whether `fuel` suffices to evaluate `format_lines_fueled` completely on
this children list. -/
def fuel_ok : Nat → List (String × TreeDict) → Bool
  | _, [] => true
  | 0, _ :: _ => false
  | fuel + 1, (_, sub) :: rest => fuel_ok fuel (sortPairs sub.children) && fuel_ok fuel rest

/-- Model of `format_tree(d, prefix)`: sort the keys, build the lines, join with
newlines. -/
def format_tree (d : TreeDict) (pre : String) : String :=
  "\n".intercalate (format_lines (sortPairs d.children) pre)

/-- Model of `_generate_tree_string(root_path, selected_paths)`. -/
def generate_tree_string (root_path : Path) (selected_paths : List Path) : String :=
  basename root_path ++ "/\n" ++ format_tree (build_tree_dict root_path selected_paths) ""

/-- The list of elements the output of `_generate_tree_string` is joined
from: the root line followed by the elements of the top-level `lines` list. -/
def output_lines (root_path : Path) (selected_paths : List Path) : List String :=
  (basename root_path ++ "/") ::
    format_lines (sortPairs (build_tree_dict root_path selected_paths).children) ""

/-- The number of distinct path segments of a flat selection (one segment
per selected path): one per distinct name, in first-occurrence order. -/
def distinct_count (names : List String) : Nat :=
  (names.foldl (fun acc n => if n ∈ acc then acc else acc ++ [n]) []).length

/-- The number of lines of a piece of text: one more than the number of
newline characters. -/
def line_count (s : String) : Nat := s.data.count '\n' + 1

/-! ## File combiner and tree exporter actions -/

/-- Result of one button action that may write an output file: whether the
"No Selection" warning dialog was shown, and the content the action left in
its output file (`none` when the file was never opened). -/
structure ActionResult : Type where
  warned : Bool
  written : Option String
deriving DecidableEq, Repr

/-- Opening a file with mode `"w"` truncates the file: whatever content it had before
(or `none` when it did not exist), writing starts from the empty string. -/
def openTruncate (_prev : Option String) : String := ""

/-- Model of `combine_files`: `prev` is the prior content of `combined_code.txt`,
`readFile path` is what `open(path, "r", encoding="utf-8").read()` returns,
and `files` is the list `get_selected_files` produced.  An empty selection
shows the warning and opens nothing; otherwise, for each file in order, the
separator line and then the file content followed by two newlines are
written. -/
def combine_files (prev : Option String) (readFile : String → String)
    (files : List String) : ActionResult :=
  if files.isEmpty then { warned := true, written := none }
  else
    { warned := false
      written := some (files.foldl
        (fun acc p => acc ++ ("--- " ++ p ++ " ---\n") ++ (readFile p ++ "\n\n"))
        (openTruncate prev)) }

/-- Modelled from the spec's words (§6 External interfaces): the format of
`combined_code.txt` is `--- <path> ---\n<file contents>\n\n` repeated per
selected file, in selection order. -/
def combinedSpecFormat (files : List (String × String)) : String :=
  (files.map (fun pc => "--- " ++ pc.1 ++ " ---\n" ++ pc.2 ++ "\n\n")).foldr
    (fun a b => a ++ b) ""

/-- Model of `export_selected_tree`: `prev` is the prior content of
`directory_tree.txt` and `files` the selected paths.  An empty selection
shows the warning and opens nothing; otherwise the rendered tree string is
written to the truncated file. -/
def export_selected_tree (prev : Option String) (root_path : Path)
    (files : List Path) : ActionResult :=
  if files.isEmpty then { warned := true, written := none }
  else
    { warned := false
      written := some (openTruncate prev ++ generate_tree_string root_path files) }

/-! ## Selection toggling in the tree view -/

/-- A `ttk.Treeview` item: its id together with its child items in display
order (`tree.get_children`). -/
inductive WTree : Type where
  | node : Nat → List WTree → WTree

/-- The id of an item. -/
def WTree.itemId : WTree → Nat
  | .node i _ => i

/-- Model of `tree.get_children(item)`. -/
def WTree.childItems : WTree → List WTree
  | .node _ cs => cs

/-- Model of `self.file_states[i] = b` on the selection mapping. -/
def setState (st : Nat → Bool) (i : Nat) (b : Bool) : Nat → Bool :=
  fun j => if j = i then b else st j

/-- Model of `_toggle_tree_children(parent, state)` applied to the children list of
`parent`: for each child, store the state and recurse into its children
(the checkbox-glyph update of the widget row is display only). -/
def toggle_tree_children (b : Bool) : List WTree → (Nat → Bool) → (Nat → Bool)
  | [], st => st
  | .node i cs :: rest, st =>
    toggle_tree_children b rest (toggle_tree_children b cs (setState st i b))

/-- Model of `_toggle_tree_selection(item)`: flip the stored boolean of `item`, and
when the "Auto-select children" flag is set, push the new boolean to all
descendants. -/
def toggle_tree_selection (auto_select : Bool) (item : WTree) (st : Nat → Bool) :
    Nat → Bool :=
  let state := ! st item.itemId
  let st1 := setState st item.itemId state
  if auto_select then toggle_tree_children state item.childItems st1 else st1

/-- All item ids of a forest: each root and all of its descendants. -/
def forestIds : List WTree → List Nat
  | [] => []
  | .node i cs :: rest => i :: (forestIds cs ++ forestIds rest)

/-- The ids of the proper descendants of an item. -/
def WTree.descendantIds (t : WTree) : List Nat :=
  forestIds t.childItems

/-! ## `get_selected_files` -/

/-- Model of `os.path.join(repo_root, path)` for an absolute root (no trailing
separator) and a relative tracked path. -/
def joinPath (root rel : String) : String := root ++ "/" ++ rel

/-- Model of `get_selected_files` in tree mode: `nodeValues i` is the full path the
tree stores for item `i` (`tree.item(i, "values")[1]`) and `isFile` is
`os.path.isfile`. -/
def get_selected_files_tree (nodeValues : Nat → String) (isFile : String → Bool)
    (file_states : List (Nat × Bool)) : List String :=
  file_states.filterMap (fun p =>
    if p.2 && isFile (nodeValues p.1) then some (nodeValues p.1) else none)

/-- Model of `get_selected_files` in git mode: `file_states` is keyed by the tracked
relative path, resolved against the repository root. -/
def get_selected_files_git (repo_root : String) (isFile : String → Bool)
    (file_states : List (String × Bool)) : List String :=
  file_states.filterMap (fun p =>
    if p.2 && isFile (joinPath repo_root p.1) then some (joinPath repo_root p.1) else none)

/-! ## The filesystem walker `_populate_tree` -/

/-- A filesystem node for the walker.  `os.listdir` returns the entries of a
directory in unspecified order, so a directory carries its entries as a
plain list. -/
inductive FSEntry : Type where
  | file : String → FSEntry
  | dir : String → List FSEntry → FSEntry

/-- The name of an entry (one `os.listdir` item). -/
def FSEntry.entryName : FSEntry → String
  | .file s => s
  | .dir s _ => s

/-- Model of `os.path.isdir`. -/
def FSEntry.isDir : FSEntry → Bool
  | .file _ => false
  | .dir _ _ => true

/-- The entries of a directory (`os.listdir`, unsorted); empty for a file. -/
def FSEntry.childEntries : FSEntry → List FSEntry
  | .file _ => []
  | .dir _ cs => cs

instance decEntryLE : DecidableRel (fun (a b : FSEntry) => a.entryName ≤ b.entryName) :=
  fun a b => String.decidableLE a.entryName b.entryName

/-- Model of `sorted(os.listdir(parent_dir))`. -/
def sortEntries (cs : List FSEntry) : List FSEntry :=
  cs.insertionSort (fun a b => a.entryName ≤ b.entryName)

/-- Measure for the walker recursion: total number of entries below a list. -/
def sizeEntries : List FSEntry → Nat
  | [] => 0
  | FSEntry.file _ :: rest => 1 + sizeEntries rest
  | FSEntry.dir _ cs :: rest => 1 + sizeEntries cs + sizeEntries rest

theorem sizeEntries_cons (e : FSEntry) (rest : List FSEntry) :
    sizeEntries (e :: rest) = 1 + sizeEntries e.childEntries + sizeEntries rest := by
  cases e <;> simp [sizeEntries, FSEntry.childEntries]

theorem sizeEntries_eq_sum (l : List FSEntry) :
    sizeEntries l = (l.map (fun e => 1 + sizeEntries e.childEntries)).sum := by
  induction l with
  | nil => simp [sizeEntries]
  | cons hd tl ih => rw [sizeEntries_cons]; simp only [List.map_cons, List.sum_cons, ih]

theorem sizeEntries_sortEntries (l : List FSEntry) :
    sizeEntries (sortEntries l) = sizeEntries l := by
  rw [sizeEntries_eq_sum, sizeEntries_eq_sum]
  exact (((List.perm_insertionSort _ l).map _).sum_eq)

mutual

/-- Model of `_populate_tree(parent_dir, parent_node)`: nothing is produced when the
argument is not a directory; otherwise the sorted listing is walked.  Each
produced tree row is recorded as (depth, entry name). -/
def populate_tree (e : FSEntry) (depth : Nat) : List (Nat × String) :=
  if e.isDir then populate_go (sortEntries e.childEntries) depth else []
termination_by 2 * sizeEntries [e]
decreasing_by
  rw [sizeEntries_sortEntries, sizeEntries_cons e []]
  simp [sizeEntries]
  omega

/-- The `for item in sorted(os.listdir(parent_dir))` loop body: insert a row
for the entry, and recurse into it when `os.path.isdir(path)` holds. -/
def populate_go : List FSEntry → Nat → List (Nat × String)
  | [], _ => []
  | e :: rest, depth =>
    (depth, e.entryName) ::
      ((if e.isDir then populate_tree e (depth + 1) else []) ++ populate_go rest depth)
termination_by l _ => 2 * sizeEntries l + 1
decreasing_by
  · rw [sizeEntries_cons e [], sizeEntries_cons e rest]
    simp [sizeEntries]
    omega
  · rw [sizeEntries_cons e rest]
    omega

end

/-! ## Window state bookkeeping (`file_states` vs the displayed items) -/

/-- The parts of the `FileSelectorApp` state that the `file_states`
invariant is about, in tree mode: the `ttk.Treeview` id counter (tkinter
item ids are fresh, never reused), the items currently displayed, and the
`file_states` mapping as an insertion-ordered association list. -/
structure AppState : Type where
  nextId : Nat
  displayed : List Nat
  file_states : List (Nat × Bool)
deriving DecidableEq, Repr

mutual

/-- Model of `_populate_tree` acting on the window state: one fresh tree item and one
`file_states` entry (`self.file_states[node] = False`; the node id is fresh,
so the dict assignment appends) per listed entry, recursing into
directories. -/
def populate_app_tree (e : FSEntry) (s : AppState) : AppState :=
  if e.isDir then populate_app_go (sortEntries e.childEntries) s else s
termination_by 2 * sizeEntries [e]
decreasing_by
  rw [sizeEntries_sortEntries, sizeEntries_cons e []]
  simp [sizeEntries]
  omega

/-- The walker loop of `_populate_tree`, threading the window state. -/
def populate_app_go : List FSEntry → AppState → AppState
  | [], s => s
  | e :: rest, s =>
    let s1 : AppState :=
      { nextId := s.nextId + 1
        displayed := s.displayed ++ [s.nextId]
        file_states := s.file_states ++ [(s.nextId, false)] }
    populate_app_go rest (if e.isDir then populate_app_tree e s1 else s1)
termination_by l _ => 2 * sizeEntries l + 1
decreasing_by
  · rw [sizeEntries_cons e [], sizeEntries_cons e rest]
    simp [sizeEntries]
    omega
  · rw [sizeEntries_cons e rest]
    omega

end

/-- Model of `_refresh_display` in tree mode: `self.tree.delete(*self.tree.get_children())`
removes every displayed item, then `_populate_tree(self.current_dir, "")`
repopulates — without clearing `self.file_states`. -/
def refresh_display_tree (root : FSEntry) (s : AppState) : AppState :=
  populate_app_tree root { s with displayed := [] }

/-- Model of `load_directory`: the chosen folder becomes `current_dir` and
`_setup_initial_directory` runs `_refresh_display` (git detection does not
touch `file_states`). -/
def load_directory (folder : FSEntry) (s : AppState) : AppState :=
  refresh_display_tree folder s

/-- The `file_states` invariant of the spec: exactly one entry per displayed
item and no entry for anything else (tree mode, keys are the item ids). -/
def statesMatchDisplay (s : AppState) : Prop :=
  s.file_states.map Prod.fst = s.displayed

instance (s : AppState) : Decidable (statesMatchDisplay s) := by
  unfold statesMatchDisplay; infer_instance

/-! ## Theorems -/

theorem combine_foldl_eq (readFile : String → String) (files : List String) (acc : String) :
    files.foldl
      (fun acc p => acc ++ ("--- " ++ p ++ " ---\n") ++ (readFile p ++ "\n\n")) acc =
      acc ++ combinedSpecFormat (files.map (fun p => (p, readFile p))) := by
  induction files generalizing acc with
  | nil => simp [combinedSpecFormat]
  | cons f rest ih =>
    simp only [List.foldl_cons, List.map_cons, combinedSpecFormat, List.foldr_cons]
    rw [ih]
    simp only [combinedSpecFormat]
    simp [String.append_assoc]

/-- C5: for every non-empty selection of readable files, `combine_files`
writes, per file in selection order, the separator line `--- <path> ---`
plus a newline, the file's content, and two trailing newlines — the spec's
`combined_code.txt` format — and any prior content of the output file is
discarded (the `prev` argument is arbitrary). -/
theorem combine_files_format (prev : Option String) (readFile : String → String)
    (files : List String) (h : files ≠ []) :
    (combine_files prev readFile files).warned = false ∧
      (combine_files prev readFile files).written =
        some (combinedSpecFormat (files.map (fun p => (p, readFile p)))) := by
  have hne : files.isEmpty = false := by
    cases files with
    | nil => exact absurd rfl h
    | cons a l => rfl
  unfold combine_files
  rw [hne]
  simp only [Bool.false_eq_true, if_false]
  refine ⟨trivial, ?_⟩
  simp only [combine_foldl_eq, openTruncate, String.empty_append]

theorem combine_files_format_witness :
    (combine_files (some "stale") (fun _ => "body") ["a.txt"]).written =
      some "--- a.txt ---\nbody\n\n" := by
  have h := combine_files_format (some "stale") (fun _ => "body") ["a.txt"] (by decide)
  rw [h.2]
  rfl

/-- C6: when `get_selected_files` yields the empty list, `combine_files`
only shows the warning dialog and writes nothing, and so does
`export_selected_tree` on an empty selection — no output file is opened. -/
theorem empty_selection_no_write (nodeValues : Nat → String) (isFile : String → Bool)
    (st : List (Nat × Bool)) (prev prev' : Option String) (readFile : String → String)
    (root : Path) (gfiles : List Path)
    (h : get_selected_files_tree nodeValues isFile st = []) (h' : gfiles = []) :
    combine_files prev readFile (get_selected_files_tree nodeValues isFile st) =
        { warned := true, written := none } ∧
      export_selected_tree prev' root gfiles = { warned := true, written := none } := by
  rw [h, h']
  exact ⟨rfl, rfl⟩

theorem empty_selection_no_write_witness :
    combine_files (some "old") (fun _ => "")
        (get_selected_files_tree (fun _ => "d") (fun _ => false) [(0, true)]) =
        { warned := true, written := none } ∧
      export_selected_tree (some "old") ["r"] [] = { warned := true, written := none } :=
  empty_selection_no_write (fun _ => "d") (fun _ => false) [(0, true)] (some "old")
    (some "old") (fun _ => "") ["r"] [] (by decide) rfl

/-- C9: the content `combine_files` leaves in `combined_code.txt` is a
function of the selected path list and the file contents alone — in
particular it does not depend on what the output file contained before, so
two runs over fixed contents are byte-identical (`open(..., "w")`
truncates). -/
theorem combine_files_deterministic (prev prev' : Option String)
    (readFile : String → String) (files : List String) :
    combine_files prev readFile files = combine_files prev' readFile files := rfl

/-- C10: `get_selected_files` returns, in both modes, exactly the displayed
entries whose stored flag is true and whose resolved path is an existing
regular file; consequently every returned path satisfies `os.path.isfile`,
so selected directories and selected-but-deleted paths never reach
`combine_files` or `export_selected_tree`. -/
theorem get_selected_files_spec (nodeValues : Nat → String) (isFile : String → Bool)
    (st : List (Nat × Bool)) (repo_root : String) (gst : List (String × Bool)) :
    (∀ p, p ∈ get_selected_files_tree nodeValues isFile st ↔
        ∃ i, (i, true) ∈ st ∧ nodeValues i = p ∧ isFile p = true)
    ∧ (∀ q, q ∈ get_selected_files_git repo_root isFile gst ↔
        ∃ rel, (rel, true) ∈ gst ∧ joinPath repo_root rel = q ∧ isFile q = true)
    ∧ (∀ p, p ∈ get_selected_files_tree nodeValues isFile st → isFile p = true)
    ∧ (∀ q, q ∈ get_selected_files_git repo_root isFile gst → isFile q = true) := by
  have htree : ∀ p, p ∈ get_selected_files_tree nodeValues isFile st ↔
      ∃ i, (i, true) ∈ st ∧ nodeValues i = p ∧ isFile p = true := by
    intro p
    unfold get_selected_files_tree
    rw [List.mem_filterMap]
    constructor
    · rintro ⟨⟨i, sel⟩, hmem, heq⟩
      by_cases hc : (sel && isFile (nodeValues i)) = true
      · rw [if_pos hc] at heq
        obtain ⟨hsel, hfile⟩ := Bool.and_eq_true_iff.mp hc
        cases heq
        exact ⟨i, by rw [hsel] at hmem; exact hmem, rfl, hfile⟩
      · rw [if_neg hc] at heq
        cases heq
    · rintro ⟨i, hmem, hval, hfile⟩
      refine ⟨(i, true), hmem, ?_⟩
      rw [if_pos]
      · rw [hval]
      · simp only [Bool.true_and]
        rw [hval]
        exact hfile
  have hgit : ∀ q, q ∈ get_selected_files_git repo_root isFile gst ↔
      ∃ rel, (rel, true) ∈ gst ∧ joinPath repo_root rel = q ∧ isFile q = true := by
    intro q
    unfold get_selected_files_git
    rw [List.mem_filterMap]
    constructor
    · rintro ⟨⟨rel, sel⟩, hmem, heq⟩
      by_cases hc : (sel && isFile (joinPath repo_root rel)) = true
      · rw [if_pos hc] at heq
        obtain ⟨hsel, hfile⟩ := Bool.and_eq_true_iff.mp hc
        cases heq
        exact ⟨rel, by rw [hsel] at hmem; exact hmem, rfl, hfile⟩
      · rw [if_neg hc] at heq
        cases heq
    · rintro ⟨rel, hmem, hval, hfile⟩
      refine ⟨(rel, true), hmem, ?_⟩
      rw [if_pos]
      · rw [hval]
      · simp only [Bool.true_and]
        rw [hval]
        exact hfile
  refine ⟨htree, hgit, ?_, ?_⟩
  · intro p hp
    exact ((htree p).mp hp).choose_spec.2.2
  · intro q hq
    exact ((hgit q).mp hq).choose_spec.2.2

theorem get_selected_files_spec_witness :
    (fun s => s == "f") "f" = true ∧
      "d" ∉ get_selected_files_tree (fun i => if i = 0 then "f" else "d")
        (fun s => s == "f") [(0, true), (1, true)] := by
  have h := get_selected_files_spec (fun i => if i = 0 then "f" else "d")
    (fun s => s == "f") [(0, true), (1, true)] "root" []
  refine ⟨h.2.2.1 "f" (by decide), fun hmem => ?_⟩
  have := h.2.2.1 "d" hmem
  simp at this

theorem toggle_children_apply (b : Bool) (ts : List WTree) (st : Nat → Bool) (j : Nat) :
    toggle_tree_children b ts st j = if j ∈ forestIds ts then b else st j := by
  induction ts, st using toggle_tree_children.induct b generalizing j with
  | case1 st => simp [toggle_tree_children, forestIds]
  | case2 i cs rest st ih1 ih2 =>
    simp only [toggle_tree_children, forestIds, List.mem_cons, List.mem_append, ih1, ih2,
      setState]
    by_cases h1 : j ∈ forestIds rest <;> by_cases h2 : j ∈ forestIds cs <;>
      by_cases h3 : j = i <;> simp [h1, h2, h3]

/-- C4: `_toggle_tree_selection` flips the clicked item's stored boolean,
and with the "Auto-select children" flag set it assigns that new boolean to
every descendant of the item, whatever each descendant's flag was before. -/
theorem toggle_selection_spec (auto_select : Bool) (item : WTree) (st : Nat → Bool) :
    toggle_tree_selection auto_select item st item.itemId = ! st item.itemId
    ∧ ∀ d, d ∈ item.descendantIds →
        toggle_tree_selection true item st d = ! st item.itemId := by
  constructor
  · unfold toggle_tree_selection
    by_cases ha : auto_select
    · rw [if_pos ha, toggle_children_apply]
      by_cases hd : item.itemId ∈ forestIds item.childItems <;> simp [hd, setState]
    · rw [if_neg ha]
      simp [setState]
  · intro d hd
    unfold toggle_tree_selection
    rw [if_pos rfl, toggle_children_apply]
    rw [if_pos (show d ∈ forestIds item.childItems from hd)]

theorem toggle_selection_spec_witness :
    toggle_tree_selection true (WTree.node 0 [WTree.node 1 [], WTree.node 2 [WTree.node 3 []]])
        (fun _ => false) 3 = true := by
  have h := (toggle_selection_spec true
    (WTree.node 0 [WTree.node 1 [], WTree.node 2 [WTree.node 3 []]]) (fun _ => false)).2
    3 (by simp [WTree.descendantIds, WTree.childItems, forestIds])
  simpa using h

instance : IsTotal FSEntry (fun a b => a.entryName ≤ b.entryName) :=
  ⟨fun a b => le_total a.entryName b.entryName⟩

instance : IsTrans FSEntry (fun a b => a.entryName ≤ b.entryName) :=
  ⟨fun _ _ _ hab hbc => le_trans hab hbc⟩

theorem populate_go_eq_flatMap (l : List FSEntry) (depth : Nat) :
    populate_go l depth =
      l.flatMap (fun e =>
        (depth, e.entryName) :: (if e.isDir then populate_tree e (depth + 1) else [])) := by
  induction l with
  | nil => simp [populate_go]
  | cons e rest ih =>
    rw [populate_go, List.flatMap_cons, ih]
    simp

/-- C8: the walker emits, below any directory, one row per entry of the
sorted listing in lexicographic name order — files and directories
interleaved purely by name — with a directory's own rows following its row
depth-first; a non-directory root silently produces nothing.  The sorted
listing is a permutation of the raw `os.listdir` result whose names are
sorted under `≤` on strings. -/
theorem populate_tree_sorted_walk :
    (∀ (s : String) (depth : Nat), populate_tree (FSEntry.file s) depth = [])
    ∧ (∀ (nm : String) (cs : List FSEntry) (depth : Nat),
        populate_tree (FSEntry.dir nm cs) depth =
          (sortEntries cs).flatMap (fun e =>
            (depth, e.entryName) ::
              (if e.isDir then populate_tree e (depth + 1) else [])))
    ∧ (∀ cs : List FSEntry,
        List.Sorted (· ≤ ·) ((sortEntries cs).map FSEntry.entryName)
          ∧ List.Perm (sortEntries cs) cs) := by
  refine ⟨?_, ?_, ?_⟩
  · intro s depth
    rw [populate_tree]
    simp [FSEntry.isDir]
  · intro nm cs depth
    rw [populate_tree]
    simp only [FSEntry.isDir, if_true, FSEntry.childEntries]
    exact populate_go_eq_flatMap _ _
  · intro cs
    constructor
    · have hs := List.sorted_insertionSort
        (fun (a b : FSEntry) => a.entryName ≤ b.entryName) cs
      exact List.Pairwise.map FSEntry.entryName (fun a b h => h) hs
    · exact List.perm_insertionSort _ cs

/-- C7 (failing evaluation): after the initial population of a directory
with one file the `file_states`/display correspondence holds, but
`load_directory` of a second one-file directory deletes the displayed items
and repopulates without clearing `file_states` (only `toggle_git_mode`
clears it), so the stale node id of the old tree keeps its entry: two
`file_states` entries, one displayed item. -/
theorem file_states_desync_after_load :
    statesMatchDisplay (refresh_display_tree (FSEntry.dir "A" [FSEntry.file "x"]) ⟨0, [], []⟩)
    ∧ ¬ statesMatchDisplay (load_directory (FSEntry.dir "B" [FSEntry.file "y"])
        (refresh_display_tree (FSEntry.dir "A" [FSEntry.file "x"]) ⟨0, [], []⟩)) := by
  constructor <;>
    simp [refresh_display_tree, load_directory, populate_app_tree, populate_app_go,
      sortEntries, FSEntry.isDir, FSEntry.childEntries, statesMatchDisplay,
      List.insertionSort, List.orderedInsert]

theorem format_lines_fueled_eq (fuel : Nat) :
    ∀ (l : List (String × TreeDict)) (pre : String), fuel_ok fuel l = true →
      format_lines_fueled fuel l pre = format_lines l pre := by
  induction fuel with
  | zero =>
    intro l pre h
    cases l with
    | nil => simp [format_lines_fueled, format_lines]
    | cons hd tl => simp [fuel_ok] at h
  | succ fuel ih =>
    intro l pre h
    cases l with
    | nil => simp [format_lines_fueled, format_lines]
    | cons hd tl =>
      obtain ⟨k, sub⟩ := hd
      rw [fuel_ok] at h
      rw [Bool.and_eq_true] at h
      rw [format_lines_fueled, format_lines]
      rw [ih _ _ h.1, ih _ _ h.2]

/-- C1 (failing evaluation): for root `/r` and the single selected file
`/r/a/b.txt` the rendering of the nested child is *not* appended line by
line: `lines.extend(format_tree(...))` extends `lines` with the characters
of the returned string, so every character of `    └── b.txt` becomes its
own output line, instead of the claimed `r/`, `└── a`, `    └── b.txt`. -/
theorem generate_tree_string_explodes_nested :
    generate_tree_string ["r"] [["r", "a", "b.txt"]] =
        "r/\n└── a\n \n \n \n \n└\n─\n─\n \nb\n.\nt\nx\nt"
      ∧ generate_tree_string ["r"] [["r", "a", "b.txt"]] ≠ "r/\n└── a\n    └── b.txt" := by
  have hfe := format_lines_fueled_eq 10
    (sortPairs (build_tree_dict ["r"] [["r", "a", "b.txt"]]).children) "" (by decide)
  have h : generate_tree_string ["r"] [["r", "a", "b.txt"]] =
      "r/\n└── a\n \n \n \n \n└\n─\n─\n \nb\n.\nt\nx\nt" := by
    rw [generate_tree_string, format_tree, ← hfe]
    decide
  refine ⟨h, ?_⟩
  rw [h]
  decide

/-- C2 (counterexample): with root `a` and selections `a/b.txt`, `a/c.txt`,
`os.path.relpath` strips the common `a` prefix, so the output is *not* the
claimed four lines with a re-inserted `a` child. -/
theorem render_under_own_root_counterexample :
    generate_tree_string ["a"] [["a", "b.txt"], ["a", "c.txt"]] ≠
      "a/\n└── a\n    ├── b.txt\n    └── c.txt" := by
  have hfe := format_lines_fueled_eq 10
    (sortPairs (build_tree_dict ["a"] [["a", "b.txt"], ["a", "c.txt"]]).children) ""
    (by decide)
  have h : generate_tree_string ["a"] [["a", "b.txt"], ["a", "c.txt"]] =
      "a/\n├── b.txt\n└── c.txt" := by
    rw [generate_tree_string, format_tree, ← hfe]
    decide
  rw [h]
  decide

/-- C2 (amended): selecting `a/b.txt` and `a/c.txt` under root `a` renders
as the three lines `a/`, `├── b.txt`, `└── c.txt`: the relative-path
computation strips the `a` prefix (`relpath("a/b.txt", "a") = "b.txt"`), so
no `a` segment is re-inserted below the root line. -/
theorem render_under_own_root_amended :
    generate_tree_string ["a"] [["a", "b.txt"], ["a", "c.txt"]] =
      "a/\n├── b.txt\n└── c.txt" := by
  have hfe := format_lines_fueled_eq 10
    (sortPairs (build_tree_dict ["a"] [["a", "b.txt"], ["a", "c.txt"]]).children) ""
    (by decide)
  rw [generate_tree_string, format_tree, ← hfe]
  decide

theorem relpath_child (root : Path) (n : String) : relpath (root ++ [n]) root = [n] := by
  have h : commonPrefixLen root (root ++ [n]) = root.length := by
    induction root with
    | nil => simp [commonPrefixLen]
    | cons a as ih => simp [commonPrefixLen, ih]
  unfold relpath
  simp [h, List.drop_left]

theorem updateAssoc_flat (n : String) (L : List String) :
    updateAssoc n (fun sub => insertParts sub []) (L.map (fun m => (m, TreeDict.node []))) =
      (if n ∈ L then L else L ++ [n]).map (fun m => (m, TreeDict.node [])) := by
  induction L with
  | nil => simp [updateAssoc, insertParts]
  | cons m L ih =>
    simp only [List.map_cons, updateAssoc]
    by_cases hmn : m = n
    · subst hmn
      simp [insertParts]
    · have hnm : ¬n = m := fun hh => hmn hh.symm
      rw [if_neg hmn, ih]
      by_cases hL : n ∈ L
      · simp [hL, hnm, List.mem_cons]
      · simp [hL, hnm, List.mem_cons]

theorem build_flat (root : Path) (names : List String) :
    build_tree_dict root (names.map (fun n => root ++ [n])) =
      TreeDict.node ((names.foldl (fun acc n => if n ∈ acc then acc else acc ++ [n]) []).map
        (fun m => (m, TreeDict.node []))) := by
  suffices h : ∀ L : List String,
      (names.map (fun n => root ++ [n])).foldl (fun d p => insertParts d (relpath p root))
        (TreeDict.node (L.map (fun m => (m, TreeDict.node [])))) =
      TreeDict.node ((names.foldl (fun acc n => if n ∈ acc then acc else acc ++ [n]) L).map
        (fun m => (m, TreeDict.node []))) by
    simpa [build_tree_dict] using h []
  induction names with
  | nil => intro L; simp
  | cons n names ih =>
    intro L
    simp only [List.map_cons, List.foldl_cons]
    rw [relpath_child]
    rw [show insertParts (TreeDict.node (L.map (fun m => (m, TreeDict.node [])))) [n] =
      TreeDict.node (updateAssoc n (fun sub => insertParts sub [])
        (L.map (fun m => (m, TreeDict.node [])))) by simp [insertParts, TreeDict.children]]
    rw [updateAssoc_flat]
    exact ih (if n ∈ L then L else L ++ [n])

theorem format_lines_length_all_leaf (ps : List (String × TreeDict)) (pre : String)
    (h : ∀ p ∈ ps, p.2 = TreeDict.node []) :
    (format_lines ps pre).length = ps.length := by
  induction ps generalizing pre with
  | nil => simp [format_lines]
  | cons hd tl ih =>
    obtain ⟨k, sub⟩ := hd
    have hsub : sub = TreeDict.node [] := h (k, sub) (List.mem_cons_self _ _)
    subst hsub
    rw [format_lines]
    simp only [TreeDict.nonEmpty, List.isEmpty_nil, Bool.not_true, Bool.false_eq_true,
      if_false, List.nil_append, List.length_cons]
    rw [ih pre (fun p hp => h p (List.mem_cons_of_mem _ hp))]

theorem dfold_ne_nil (names : List String) (h : names ≠ []) :
    names.foldl (fun acc n => if n ∈ acc then acc else acc ++ [n]) [] ≠ [] := by
  have key : ∀ (l acc : List String), acc ≠ [] →
      l.foldl (fun acc n => if n ∈ acc then acc else acc ++ [n]) acc ≠ [] := by
    intro l
    induction l with
    | nil => intro acc hacc; simpa
    | cons n l ih =>
      intro acc hacc
      simp only [List.foldl_cons]
      by_cases hn : n ∈ acc
      · rw [if_pos hn]; exact ih acc hacc
      · rw [if_neg hn]; exact ih _ (by simp)
  cases names with
  | nil => exact absurd rfl h
  | cons n l =>
    simp only [List.foldl_cons]
    exact key l _ (by simp)

theorem intercalate_go_pull (s : String) :
    ∀ (t : List String) (x y : String),
      String.intercalate.go (x ++ y) s t = x ++ String.intercalate.go y s t := by
  intro t
  induction t with
  | nil => intro x y; rfl
  | cons a t ih =>
    intro x y
    show String.intercalate.go ((x ++ y) ++ s ++ a) s t =
      x ++ String.intercalate.go ((y ++ s) ++ a) s t
    have harg : ((x ++ y) ++ s) ++ a = x ++ ((y ++ s) ++ a) := by
      simp [String.append_assoc]
    rw [show ((x ++ y) ++ s ++ a : String) = x ++ ((y ++ s) ++ a) from harg]
    exact ih x ((y ++ s) ++ a)

theorem intercalate_cons_ne_nil (s a : String) (l : List String) (h : l ≠ []) :
    String.intercalate s (a :: l) = a ++ s ++ String.intercalate s l := by
  cases l with
  | nil => exact absurd rfl h
  | cons b t =>
    show String.intercalate.go ((a ++ s) ++ b) s t =
      (a ++ s) ++ String.intercalate.go b s t
    exact intercalate_go_pull s t (a ++ s) b

/-- C3 (counterexample): for root `/r` and the single selected file
`/r/x.txt` there is exactly one distinct path segment (`x.txt`), but the
output `r/\n└── x.txt` has two lines — the root line is always extra, so
the claimed equality fails. -/
theorem line_count_claim_counterexample :
    line_count (generate_tree_string ["r"] [["r", "x.txt"]]) ≠ 1 := by
  have hfe := format_lines_fueled_eq 10
    (sortPairs (build_tree_dict ["r"] [["r", "x.txt"]]).children) "" (by decide)
  have h : generate_tree_string ["r"] [["r", "x.txt"]] = "r/\n└── x.txt" := by
    rw [generate_tree_string, format_tree, ← hfe]
    decide
  rw [h]
  decide

/-- C3 (amended): for a non-empty *flat* selection — every selected path
exactly one segment below the root, so that the nested-rendering
`lines.extend` bug is not triggered — the output is the newline-join of
`output_lines`, and the number of those lines is the number of distinct
path segments plus one (the root line). -/
theorem flat_selection_line_count (root : Path) (names : List String) (h : names ≠ []) :
    (output_lines root (names.map (fun n => root ++ [n]))).length = distinct_count names + 1
    ∧ generate_tree_string root (names.map (fun n => root ++ [n])) =
        "\n".intercalate (output_lines root (names.map (fun n => root ++ [n]))) := by
  have hflat := build_flat root names
  have hleaf : ∀ p ∈ sortPairs ((build_tree_dict root
      (names.map (fun n => root ++ [n]))).children), p.2 = TreeDict.node [] := by
    intro p hp
    have hp' : p ∈ (build_tree_dict root (names.map (fun n => root ++ [n]))).children :=
      (List.mem_insertionSort _).mp hp
    rw [hflat] at hp'
    simp only [TreeDict.children] at hp'
    obtain ⟨m, _, hpm⟩ := List.mem_map.mp hp'
    exact congrArg Prod.snd hpm.symm
  have hlen : (format_lines (sortPairs ((build_tree_dict root
      (names.map (fun n => root ++ [n]))).children)) "").length = distinct_count names := by
    rw [format_lines_length_all_leaf _ _ hleaf]
    rw [sortPairs, List.length_insertionSort, hflat]
    simp [TreeDict.children, distinct_count]
  constructor
  · simp only [output_lines, List.length_cons, hlen]
  · have hfl : format_lines (sortPairs ((build_tree_dict root
        (names.map (fun n => root ++ [n]))).children)) "" ≠ [] := by
      intro hnil
      rw [hnil] at hlen
      have hD := dfold_ne_nil names h
      simp only [distinct_count] at hlen
      exact hD (List.eq_nil_of_length_eq_zero hlen.symm)
    show basename root ++ "/\n" ++ format_tree (build_tree_dict root
        (names.map (fun n => root ++ [n]))) "" = _
    rw [output_lines, intercalate_cons_ne_nil _ _ _ hfl]
    rw [format_tree]
    have hsl : ("/" : String) ++ "\n" = "/\n" := by decide
    rw [show (basename root ++ "/\n" : String) = (basename root ++ "/") ++ "\n" by
      rw [String.append_assoc, hsl]]

theorem flat_selection_line_count_witness :
    (output_lines ["r"] (["b.txt", "c.txt"].map (fun n => ["r"] ++ [n]))).length = 3 := by
  have h := (flat_selection_line_count ["r"] ["b.txt", "c.txt"] (by decide)).1
  rw [h]
  decide

end FolderStructure
